import Mathlib

/-!
Verification development for the FHEVault confidential staking ledger
(`contracts/FHEVault.sol`).  The contract keeps, per account, a plaintext
stake (`uint256`) and an encrypted stake (`euint64` ciphertext handle), plus a
plaintext total and an encrypted total, and exposes `stake`/`withdraw`
operations that update all four and delegate asset movement to an external
ERC7984 confidential token.

Shallow embedding conventions:
* addresses and ciphertext handles are `Nat`; handle `0` is the
  "uninitialized" handle (the Solidity mapping default; `FHE.isInitialized`
  is `handle ≠ 0`, and the FHEVM allocates only nonzero handles);
* the FHE engine (external FHEVM library) is a symbolic state: a fresh-handle
  counter, a decryption map (handle → plaintext value, always reduced mod
  2^64 because the handles are `euint64`), an access-control list of
  (handle, principal) grants, and a log of the homomorphic operations
  performed — `FHE.asEuint64`, `FHE.add` and `FHE.sub` each allocate a fresh
  handle, exactly as the FHEVM symbolic executor does;
* machine integers are `Nat` with explicit bounds: `euint64` arithmetic wraps
  mod `2^64`; the contract's `uint256` arithmetic is checked (Solidity 0.8
  panics on overflow/underflow), modelled by explicit `Overflow`/`Underflow`
  error branches;
* a reverting call is `Except.error`; the EVM's all-or-nothing transaction
  semantics is `runCall`, which keeps the pre-state on error;
* the ERC7984USDT token's `confidentialTransferFrom`/`confidentialTransfer`
  (an external collaborator whose Solidity source is not part of the ledger
  core) is modelled from the spec: a call either succeeds or is rejected
  (missing operator delegation or insufficient confidential balance), which
  we represent by a boolean oracle `transferOk` supplied with each call; the
  handle passed to the token is recorded in a transfer log.
-/

/-- `euint64` modulus: homomorphic add/sub on 64-bit encrypted integers wrap
mod `2^64`. -/
def M : Nat := 2 ^ 64

/-- `uint256` modulus: Solidity 0.8 checked arithmetic reverts when a result
would reach this bound. -/
def U256 : Nat := 2 ^ 256

abbrev Addr := Nat

/-- The vault contract's own address (`address(this)`). -/
def vaultAddr : Addr := 0

/-- The ERC7984USDT token contract's address (`address(token)`). -/
def tokenAddr : Addr := 1

/-- One symbolic FHE-engine operation, as logged by the engine:
`enc v h` is `FHE.asEuint64` producing handle `h` encrypting `v`;
`add a b h` / `sub a b h` are `FHE.add`/`FHE.sub` combining handles `a`,`b`
into fresh handle `h`. -/
inductive FheOp where
  | enc (value handle : Nat)
  | add (a b handle : Nat)
  | sub (a b handle : Nat)
deriving DecidableEq, Repr

/-- Association-list lookup with the Solidity mapping default `0`. -/
def mlookup : List (Nat × Nat) → Nat → Nat
  | [], _ => 0
  | (k, v) :: rest, a => if k = a then v else mlookup rest a

/-- Association-list store (overwrite the first binding, insert if absent). -/
def mset : List (Nat × Nat) → Nat → Nat → List (Nat × Nat)
  | [], a, v => [(a, v)]
  | (k, w) :: rest, a, v =>
      if k = a then (a, v) :: rest else (k, w) :: mset rest a v

/-- Symbolic state of the external FHE engine. -/
structure FheState where
  /-- Next fresh ciphertext handle; starts at 1, so handle 0 is never a real
  ciphertext and serves as the "uninitialized" marker. -/
  nextHandle : Nat
  /-- Decryption map: what each allocated handle decrypts to (mod `M`). -/
  plain : List (Nat × Nat)
  /-- Access-control list: (handle, principal) pairs granted decryption. -/
  acl : List (Nat × Addr)
  /-- Log of homomorphic operations, most recent first. -/
  ops : List FheOp
deriving DecidableEq, Repr

def FheState.init : FheState := ⟨1, [], [], []⟩

/-- `FHE.asEuint64(v)`: trivially encrypt a `uint64` value, allocating a
fresh handle. -/
def fheAsEuint64 (f : FheState) (v : Nat) : FheState × Nat :=
  let h := f.nextHandle
  (⟨h + 1, mset f.plain h (v % M), f.acl, .enc (v % M) h :: f.ops⟩, h)

/-- `FHE.add(a, b)`: homomorphic addition of two `euint64` handles, wrapping
mod `2^64`, allocating a fresh handle for the result. -/
def fheAdd (f : FheState) (a b : Nat) : FheState × Nat :=
  let h := f.nextHandle
  (⟨h + 1, mset f.plain h ((mlookup f.plain a + mlookup f.plain b) % M),
    f.acl, .add a b h :: f.ops⟩, h)

/-- `FHE.sub(a, b)`: homomorphic subtraction of two `euint64` handles,
wrapping mod `2^64`, allocating a fresh handle for the result. -/
def fheSub (f : FheState) (a b : Nat) : FheState × Nat :=
  let h := f.nextHandle
  (⟨h + 1,
    mset f.plain h ((mlookup f.plain a + (M - mlookup f.plain b % M)) % M),
    f.acl, .sub a b h :: f.ops⟩, h)

/-- `FHE.allow(h, p)` (and `FHE.allowThis` with `p = vaultAddr`): grant
principal `p` decryption rights on handle `h`. -/
def fheAllow (f : FheState) (h : Nat) (p : Addr) : FheState :=
  { f with acl := (h, p) :: f.acl }

/-- Whether principal `p` holds decryption rights on handle `h`. -/
def fheAllowed (f : FheState) (h : Nat) (p : Addr) : Bool :=
  (h, p) ∈ f.acl

/-- Events emitted by the vault. -/
inductive VaultEvent where
  | Staked (user : Addr) (amount : Nat)
  | Withdrawn (user : Addr) (amount : Nat)
deriving DecidableEq, Repr

/-- Confidential transfers requested from the token contract.
`xferIn u h` is `token.confidentialTransferFrom(u, address(this), h)`;
`xferOut u h` is `token.confidentialTransfer(u, h)`. -/
inductive XferRec where
  | xferIn (sender : Addr) (handle : Nat)
  | xferOut (recipient : Addr) (handle : Nat)
deriving DecidableEq, Repr

/-- Errors (reverts): the contract's custom errors plus the Solidity 0.8
checked-arithmetic panics and a rejection bubbled up from the token's
confidential transfer. -/
inductive VaultError where
  | InvalidToken
  | InvalidAmount
  | InsufficientStake
  | Overflow
  | Underflow
  | TransferFailed
deriving DecidableEq, Repr

/-- The FHEVault contract state: the four storage slots (`_stakes`,
`_stakesCipher`, `_totalStaked`, `_totalStakedCipher`), the FHE-engine
state it interacts with, the emitted events and the requested transfers
(most recent first). -/
structure VaultState where
  stakes : List (Addr × Nat)
  stakesCipher : List (Addr × Nat)
  totalStaked : Nat
  totalStakedCipher : Nat
  fhe : FheState
  events : List VaultEvent
  transfers : List XferRec
deriving DecidableEq, Repr

/-- Freshly deployed vault: empty mappings, zero totals, uninitialized
ciphers. -/
def initialVault : VaultState :=
  ⟨[], [], 0, 0, FheState.init, [], []⟩

/-- `FHEVault._updateEncryptedStake(user, amount, isAddition)`:
if the user's current cipher is uninitialized, the new cipher is the delta
handle itself; otherwise it is `FHE.add`/`FHE.sub` of the current cipher and
the delta; then `FHE.allowThis(updatedCipher)` and
`FHE.allow(updatedCipher, user)`, and the mapping is updated. -/
def _updateEncryptedStake (s : VaultState) (user : Addr) (amount : Nat)
    (isAddition : Bool) : VaultState :=
  let currentCipher := mlookup s.stakesCipher user
  let fu : FheState × Nat :=
    if currentCipher = 0 then (s.fhe, amount)
    else if isAddition then fheAdd s.fhe currentCipher amount
    else fheSub s.fhe currentCipher amount
  let f := fheAllow (fheAllow fu.1 fu.2 vaultAddr) fu.2 user
  { s with fhe := f, stakesCipher := mset s.stakesCipher user fu.2 }

/-- `FHEVault._updateTotalEncryptedStake(amount, isAddition)`: same
combination rule on `_totalStakedCipher`, but only
`FHE.allowThis(_totalStakedCipher)` is granted afterwards. -/
def _updateTotalEncryptedStake (s : VaultState) (amount : Nat)
    (isAddition : Bool) : VaultState :=
  let fu : FheState × Nat :=
    if s.totalStakedCipher = 0 then (s.fhe, amount)
    else if isAddition then fheAdd s.fhe s.totalStakedCipher amount
    else fheSub s.fhe s.totalStakedCipher amount
  let f := fheAllow fu.1 fu.2 vaultAddr
  { s with fhe := f, totalStakedCipher := fu.2 }

/-- `FHEVault.stake(uint64 amount)` called by `sender`.  `transferOk` is the
token-side oracle: whether `token.confidentialTransferFrom` accepts the
transfer (modelled from the spec, see the header).  Mirrors the source
statement by statement: zero check; plaintext stake and total updates with
checked `uint256` arithmetic; one `FHE.asEuint64`; the two encrypted
accumulator updates; `FHE.allow` of the delta handle to the vault and the
token; the confidential transfer-in; the `Staked` event. -/
def stake (s : VaultState) (sender : Addr) (amount : Nat)
    (transferOk : Bool) : Except VaultError VaultState :=
  if amount = 0 then .error .InvalidAmount
  else
    let currentStake := mlookup s.stakes sender
    if U256 ≤ currentStake + amount then .error .Overflow
    else if U256 ≤ s.totalStaked + amount then .error .Overflow
    else
      let s1 := { s with stakes := mset s.stakes sender (currentStake + amount),
                         totalStaked := s.totalStaked + amount }
      let fe := fheAsEuint64 s1.fhe amount
      let s2 := { s1 with fhe := fe.1 }
      let encryptedAmount := fe.2
      let s3 := _updateEncryptedStake s2 sender encryptedAmount true
      let s4 := _updateTotalEncryptedStake s3 encryptedAmount true
      let s5 := { s4 with
        fhe := fheAllow (fheAllow s4.fhe encryptedAmount vaultAddr)
                 encryptedAmount tokenAddr }
      if transferOk then
        .ok { s5 with
          transfers := .xferIn sender encryptedAmount :: s5.transfers,
          events := .Staked sender amount :: s5.events }
      else .error .TransferFailed

/-- `FHEVault.withdraw(uint64 amount)` called by `sender`.  `transferOk` is
the oracle for `token.confidentialTransfer`.  Mirrors the source: zero
check; `InsufficientStake` check against the plaintext stake; checked
plaintext updates (the total's subtraction carries Solidity's implicit
underflow panic); one `FHE.asEuint64`; the two encrypted accumulator
updates with subtraction; delta-handle grants; transfer-out; event. -/
def withdraw (s : VaultState) (sender : Addr) (amount : Nat)
    (transferOk : Bool) : Except VaultError VaultState :=
  if amount = 0 then .error .InvalidAmount
  else
    let currentStake := mlookup s.stakes sender
    if currentStake < amount then .error .InsufficientStake
    else if s.totalStaked < amount then .error .Underflow
    else
      let s1 := { s with stakes := mset s.stakes sender (currentStake - amount),
                         totalStaked := s.totalStaked - amount }
      let fe := fheAsEuint64 s1.fhe amount
      let s2 := { s1 with fhe := fe.1 }
      let encryptedAmount := fe.2
      let s3 := _updateEncryptedStake s2 sender encryptedAmount false
      let s4 := _updateTotalEncryptedStake s3 encryptedAmount false
      let s5 := { s4 with
        fhe := fheAllow (fheAllow s4.fhe encryptedAmount vaultAddr)
                 encryptedAmount tokenAddr }
      if transferOk then
        .ok { s5 with
          transfers := .xferOut sender encryptedAmount :: s5.transfers,
          events := .Withdrawn sender amount :: s5.events }
      else .error .TransferFailed

/-- `FHEVault.getStake(user)`. -/
def getStake (s : VaultState) (user : Addr) : Nat := mlookup s.stakes user

/-- `FHEVault.getStakeCipher(user)`. -/
def getStakeCipher (s : VaultState) (user : Addr) : Nat :=
  mlookup s.stakesCipher user

/-- `FHEVault.getTotalStaked()`. -/
def getTotalStaked (s : VaultState) : Nat := s.totalStaked

/-- `FHEVault.getTotalStakedCipher()`. -/
def getTotalStakedCipher (s : VaultState) : Nat := s.totalStakedCipher

/-- An external call to the vault. -/
inductive Call where
  | stakeC (sender : Addr) (amount : Nat) (transferOk : Bool)
  | withdrawC (sender : Addr) (amount : Nat) (transferOk : Bool)
deriving DecidableEq, Repr

/-- The result of one call, before revert semantics. -/
def stepCall (s : VaultState) : Call → Except VaultError VaultState
  | .stakeC sender amount tOk => stake s sender amount tOk
  | .withdrawC sender amount tOk => withdraw s sender amount tOk

/-- EVM transaction semantics: a reverted call leaves the state exactly as it
was. -/
def runCall (s : VaultState) (c : Call) : VaultState :=
  match stepCall s c with
  | .ok s' => s'
  | .error _ => s

def runCalls (s : VaultState) (cs : List Call) : VaultState :=
  cs.foldl runCall s

def exceptOk : Except VaultError VaultState → Bool
  | .ok _ => true
  | .error _ => false

/-- Sum of all plaintext stakes recorded in the mapping. -/
def sumStakes (l : List (Nat × Nat)) : Nat := (l.map Prod.snd).sum

/-- States reachable from a freshly deployed vault by successful calls;
amounts are `uint64`-bounded as in the ABI. -/
inductive Reachable : VaultState → Prop where
  | init : Reachable initialVault
  | step_stake {s s' : VaultState} {sender amount : Nat} {tOk : Bool} :
      Reachable s → amount < M → stake s sender amount tOk = .ok s' →
      Reachable s'
  | step_withdraw {s s' : VaultState} {sender amount : Nat} {tOk : Bool} :
      Reachable s → amount < M → withdraw s sender amount tOk = .ok s' →
      Reachable s'

/-! ### Association-list map lemmas -/

theorem mlookup_mset_self (l : List (Nat × Nat)) (a v : Nat) :
    mlookup (mset l a v) a = v := by
  induction l with
  | nil => simp [mset, mlookup]
  | cons kv rest ih =>
    obtain ⟨k, w⟩ := kv
    by_cases h : k = a <;> simp [mset, mlookup, h, ih]

theorem mlookup_mset_ne (l : List (Nat × Nat)) {a b : Nat} (v : Nat)
    (h : a ≠ b) : mlookup (mset l a v) b = mlookup l b := by
  induction l with
  | nil => simp [mset, mlookup, h]
  | cons kv rest ih =>
    obtain ⟨k, w⟩ := kv
    by_cases hk : k = a
    · subst hk; simp [mset, mlookup, h]
    · simp [mset, mlookup, hk, ih]

theorem sumStakes_cons (k w : Nat) (t : List (Nat × Nat)) :
    sumStakes ((k, w) :: t) = w + sumStakes t := by
  simp [sumStakes]

theorem sumStakes_mset (l : List (Nat × Nat)) (a v : Nat) :
    sumStakes (mset l a v) + mlookup l a = sumStakes l + v := by
  induction l with
  | nil => simp [mset, mlookup, sumStakes]
  | cons kv rest ih =>
    obtain ⟨k, w⟩ := kv
    by_cases h : k = a <;> simp [mset, mlookup, sumStakes_cons, h] <;> omega

theorem mlookup_le_sumStakes (l : List (Nat × Nat)) (a : Nat) :
    mlookup l a ≤ sumStakes l := by
  induction l with
  | nil => simp [mlookup, sumStakes]
  | cons kv rest ih =>
    obtain ⟨k, w⟩ := kv
    by_cases h : k = a <;> simp [mlookup, sumStakes_cons, h] <;> omega

theorem M_pos : 0 < M := by decide

/-! ### The reachable-state invariant -/

/-- Inductive invariant of the vault: conservation of the plaintext total,
well-formedness of the allocated handles, and the mod-`2^64` consistency of
each initialized encrypted accumulator with its plaintext mirror. -/
def VaultInv (s : VaultState) : Prop :=
  s.totalStaked = sumStakes s.stakes ∧
  0 < s.fhe.nextHandle ∧
  (∀ h, mlookup s.fhe.plain h < M) ∧
  (∀ a, mlookup s.stakesCipher a < s.fhe.nextHandle) ∧
  s.totalStakedCipher < s.fhe.nextHandle ∧
  (∀ a, mlookup s.stakesCipher a ≠ 0 →
    mlookup s.fhe.plain (mlookup s.stakesCipher a) = mlookup s.stakes a % M) ∧
  (s.totalStakedCipher ≠ 0 →
    mlookup s.fhe.plain s.totalStakedCipher = s.totalStaked % M) ∧
  (∀ a, mlookup s.stakesCipher a = 0 → mlookup s.stakes a = 0) ∧
  (s.totalStakedCipher = 0 → s.totalStaked = 0)

theorem mod_sub_mod (x a m : Nat) (ha : a < m) (hle : a ≤ x) :
    (x % m + (m - a)) % m = (x - a) % m := by
  rw [Nat.mod_add_mod]
  have hxy : x + (m - a) = (x - a) + m := by omega
  rw [hxy, Nat.add_mod_right]

theorem mlookup_mset_lt (p : List (Nat × Nat)) {h x : Nat} (v : Nat)
    (hx : x < h) : mlookup (mset p h v) x = mlookup p x :=
  mlookup_mset_ne p v (Nat.ne_of_gt hx)

theorem stake_ok_inv {s s' : VaultState} {sender amount : Nat} {tOk : Bool}
    (hInv : VaultInv s) (hamt : amount < M)
    (hok : stake s sender amount tOk = .ok s') : VaultInv s' := by
  obtain ⟨h1, h2, h3, h4, h5, h6, h7, h8, h9⟩ := hInv
  have hsum := sumStakes_mset s.stakes sender (mlookup s.stakes sender + amount)
  simp only [stake, _updateEncryptedStake, _updateTotalEncryptedStake,
    fheAsEuint64, fheAdd, fheSub, fheAllow, eq_self_iff_true, if_true] at hok
  rw [Nat.mod_eq_of_lt hamt] at hok
  split_ifs at hok with hz hov1 hov2 htok hc ht ht'
  all_goals try simp only [reduceCtorEq] at hok
  all_goals (injection hok with hok; subst hok; unfold VaultInv; dsimp only)
  -- B1: account cipher and total cipher both uninitialized
  · have hs0 : mlookup s.stakes sender = 0 := h8 sender hc
    have ht0 : s.totalStaked = 0 := h9 ht
    refine ⟨by omega, by omega, ?_, ?_, by omega, ?_, ?_, ?_, by omega⟩
    · intro x
      by_cases hx : s.fhe.nextHandle = x
      · subst hx; rw [mlookup_mset_self]; exact hamt
      · rw [mlookup_mset_ne _ _ hx]; exact h3 x
    · intro a
      by_cases ha : sender = a
      · subst ha; rw [mlookup_mset_self]; omega
      · rw [mlookup_mset_ne _ _ ha]; have := h4 a; omega
    · intro a ha0
      by_cases ha : sender = a
      · subst ha
        rw [mlookup_mset_self, mlookup_mset_self, mlookup_mset_self, hs0,
          Nat.zero_add, Nat.mod_eq_of_lt hamt]
      · rw [mlookup_mset_ne _ _ ha] at ha0
        rw [mlookup_mset_ne _ _ ha, mlookup_mset_lt _ _ (h4 a),
          mlookup_mset_ne _ _ ha]
        exact h6 a ha0
    · intro h0
      rw [mlookup_mset_self, ht0, Nat.zero_add, Nat.mod_eq_of_lt hamt]
    · intro a ha0
      by_cases ha : sender = a
      · subst ha; rw [mlookup_mset_self] at ha0; omega
      · rw [mlookup_mset_ne _ _ ha] at ha0
        rw [mlookup_mset_ne _ _ ha]
        exact h8 a ha0
  -- B2: account cipher uninitialized, total cipher initialized
  · have hs0 : mlookup s.stakes sender = 0 := h8 sender hc
    have hpt : mlookup (mset s.fhe.plain s.fhe.nextHandle amount)
        s.totalStakedCipher = s.totalStaked % M := by
      rw [mlookup_mset_lt _ _ h5]; exact h7 ht
    have hpH : mlookup (mset s.fhe.plain s.fhe.nextHandle amount)
        s.fhe.nextHandle = amount := mlookup_mset_self _ _ _
    refine ⟨by omega, by omega, ?_, ?_, by omega, ?_, ?_, ?_, by omega⟩
    · intro x
      by_cases hx1 : s.fhe.nextHandle + 1 = x
      · subst hx1; rw [mlookup_mset_self]; exact Nat.mod_lt _ M_pos
      · rw [mlookup_mset_ne _ _ hx1]
        by_cases hx : s.fhe.nextHandle = x
        · subst hx; rw [mlookup_mset_self]; exact hamt
        · rw [mlookup_mset_ne _ _ hx]; exact h3 x
    · intro a
      by_cases ha : sender = a
      · subst ha; rw [mlookup_mset_self]; omega
      · rw [mlookup_mset_ne _ _ ha]; have := h4 a; omega
    · intro a ha0
      rw [hpt, hpH]
      by_cases ha : sender = a
      · subst ha
        rw [mlookup_mset_self,
          mlookup_mset_lt _ _ (show s.fhe.nextHandle < s.fhe.nextHandle + 1 by omega),
          mlookup_mset_self, mlookup_mset_self, hs0, Nat.zero_add,
          Nat.mod_eq_of_lt hamt]
      · rw [mlookup_mset_ne _ _ ha] at ha0
        rw [mlookup_mset_ne _ _ ha,
          mlookup_mset_lt _ _ (show mlookup s.stakesCipher a < s.fhe.nextHandle + 1 by have := h4 a; omega),
          mlookup_mset_lt _ _ (h4 a), mlookup_mset_ne _ _ ha]
        exact h6 a ha0
    · intro h0
      rw [hpt, hpH, mlookup_mset_self]
      conv_rhs => rw [Nat.add_mod]
      rw [Nat.mod_eq_of_lt hamt]
    · intro a ha0
      by_cases ha : sender = a
      · subst ha; rw [mlookup_mset_self] at ha0; omega
      · rw [mlookup_mset_ne _ _ ha] at ha0
        rw [mlookup_mset_ne _ _ ha]
        exact h8 a ha0
  -- B3: account cipher initialized, total cipher uninitialized
  · have ht0 : s.totalStaked = 0 := h9 ht'
    have hpc : mlookup (mset s.fhe.plain s.fhe.nextHandle amount)
        (mlookup s.stakesCipher sender) = mlookup s.stakes sender % M := by
      rw [mlookup_mset_lt _ _ (h4 sender)]; exact h6 sender hc
    have hpH : mlookup (mset s.fhe.plain s.fhe.nextHandle amount)
        s.fhe.nextHandle = amount := mlookup_mset_self _ _ _
    refine ⟨by omega, by omega, ?_, ?_, by omega, ?_, ?_, ?_, by omega⟩
    · intro x
      by_cases hx1 : s.fhe.nextHandle + 1 = x
      · subst hx1; rw [mlookup_mset_self]; exact Nat.mod_lt _ M_pos
      · rw [mlookup_mset_ne _ _ hx1]
        by_cases hx : s.fhe.nextHandle = x
        · subst hx; rw [mlookup_mset_self]; exact hamt
        · rw [mlookup_mset_ne _ _ hx]; exact h3 x
    · intro a
      by_cases ha : sender = a
      · subst ha; rw [mlookup_mset_self]; omega
      · rw [mlookup_mset_ne _ _ ha]; have := h4 a; omega
    · intro a ha0
      rw [hpc, hpH]
      by_cases ha : sender = a
      · subst ha
        rw [mlookup_mset_self, mlookup_mset_self, mlookup_mset_self]
        conv_rhs => rw [Nat.add_mod]
        rw [Nat.mod_eq_of_lt hamt]
      · rw [mlookup_mset_ne _ _ ha] at ha0
        rw [mlookup_mset_ne _ _ ha,
          mlookup_mset_lt _ _ (show mlookup s.stakesCipher a < s.fhe.nextHandle + 1 by have := h4 a; omega),
          mlookup_mset_lt _ _ (h4 a), mlookup_mset_ne _ _ ha]
        exact h6 a ha0
    · intro h0
      rw [hpc, hpH,
        mlookup_mset_lt _ _ (show s.fhe.nextHandle < s.fhe.nextHandle + 1 by omega),
        mlookup_mset_self, ht0, Nat.zero_add, Nat.mod_eq_of_lt hamt]
    · intro a ha0
      by_cases ha : sender = a
      · subst ha; rw [mlookup_mset_self] at ha0; omega
      · rw [mlookup_mset_ne _ _ ha] at ha0
        rw [mlookup_mset_ne _ _ ha]
        exact h8 a ha0
  -- B4: both accumulators initialized
  · have hpc : mlookup (mset s.fhe.plain s.fhe.nextHandle amount)
        (mlookup s.stakesCipher sender) = mlookup s.stakes sender % M := by
      rw [mlookup_mset_lt _ _ (h4 sender)]; exact h6 sender hc
    have hpH : mlookup (mset s.fhe.plain s.fhe.nextHandle amount)
        s.fhe.nextHandle = amount := mlookup_mset_self _ _ _
    refine ⟨by omega, by omega, ?_, ?_, by omega, ?_, ?_, ?_, by omega⟩
    · intro x
      rw [hpc, hpH]
      by_cases hx2 : s.fhe.nextHandle + 1 + 1 = x
      · subst hx2; rw [mlookup_mset_self]; exact Nat.mod_lt _ M_pos
      · rw [mlookup_mset_ne _ _ hx2]
        by_cases hx1 : s.fhe.nextHandle + 1 = x
        · subst hx1; rw [mlookup_mset_self]; exact Nat.mod_lt _ M_pos
        · rw [mlookup_mset_ne _ _ hx1]
          by_cases hx : s.fhe.nextHandle = x
          · subst hx; rw [mlookup_mset_self]; exact hamt
          · rw [mlookup_mset_ne _ _ hx]; exact h3 x
    · intro a
      by_cases ha : sender = a
      · subst ha; rw [mlookup_mset_self]; omega
      · rw [mlookup_mset_ne _ _ ha]; have := h4 a; omega
    · intro a ha0
      rw [hpc, hpH,
        mlookup_mset_lt _ _ (show s.totalStakedCipher < s.fhe.nextHandle + 1 by omega),
        mlookup_mset_lt _ _ h5, h7 ht',
        mlookup_mset_lt _ _ (show s.fhe.nextHandle < s.fhe.nextHandle + 1 by omega),
        mlookup_mset_self]
      by_cases ha : sender = a
      · subst ha
        rw [mlookup_mset_self,
          mlookup_mset_lt _ _ (show s.fhe.nextHandle + 1 < s.fhe.nextHandle + 1 + 1 by omega),
          mlookup_mset_self, mlookup_mset_self]
        conv_rhs => rw [Nat.add_mod]
        rw [Nat.mod_eq_of_lt hamt]
      · rw [mlookup_mset_ne _ _ ha] at ha0
        rw [mlookup_mset_ne _ _ ha,
          mlookup_mset_lt _ _ (show mlookup s.stakesCipher a < s.fhe.nextHandle + 1 + 1 by have := h4 a; omega),
          mlookup_mset_lt _ _ (show mlookup s.stakesCipher a < s.fhe.nextHandle + 1 by have := h4 a; omega),
          mlookup_mset_lt _ _ (h4 a), mlookup_mset_ne _ _ ha]
        exact h6 a ha0
    · intro h0
      rw [hpc, hpH,
        mlookup_mset_lt _ _ (show s.totalStakedCipher < s.fhe.nextHandle + 1 by omega),
        mlookup_mset_lt _ _ h5, h7 ht',
        mlookup_mset_lt _ _ (show s.fhe.nextHandle < s.fhe.nextHandle + 1 by omega),
        mlookup_mset_self, mlookup_mset_self]
      conv_rhs => rw [Nat.add_mod]
      rw [Nat.mod_eq_of_lt hamt]
    · intro a ha0
      by_cases ha : sender = a
      · subst ha; rw [mlookup_mset_self] at ha0; omega
      · rw [mlookup_mset_ne _ _ ha] at ha0
        rw [mlookup_mset_ne _ _ ha]
        exact h8 a ha0

theorem withdraw_ok_inv {s s' : VaultState} {sender amount : Nat} {tOk : Bool}
    (hInv : VaultInv s) (hamt : amount < M)
    (hok : withdraw s sender amount tOk = .ok s') : VaultInv s' := by
  obtain ⟨h1, h2, h3, h4, h5, h6, h7, h8, h9⟩ := hInv
  have hsum := sumStakes_mset s.stakes sender (mlookup s.stakes sender - amount)
  simp only [withdraw, _updateEncryptedStake, _updateTotalEncryptedStake,
    fheAsEuint64, fheAdd, fheSub, fheAllow, eq_self_iff_true, if_true,
    Bool.false_eq_true, if_false] at hok
  rw [Nat.mod_eq_of_lt hamt] at hok
  split_ifs at hok with hz hin hun htok hc ht ht'
  all_goals try simp only [reduceCtorEq] at hok
  all_goals (injection hok with hok; subst hok; unfold VaultInv; dsimp only)
  -- an uninitialized account cipher forces a zero stake, contradicting the
  -- passed InsufficientStake check
  · exact absurd (h8 sender hc) (by omega)
  · exact absurd (h8 sender hc) (by omega)
  -- likewise an uninitialized total cipher forces a zero total
  · exact absurd (h9 ht') (by omega)
  -- both accumulators initialized: the only live branch
  · have hpc : mlookup (mset s.fhe.plain s.fhe.nextHandle amount)
        (mlookup s.stakesCipher sender) = mlookup s.stakes sender % M := by
      rw [mlookup_mset_lt _ _ (h4 sender)]; exact h6 sender hc
    have hpH : mlookup (mset s.fhe.plain s.fhe.nextHandle amount)
        s.fhe.nextHandle = amount := mlookup_mset_self _ _ _
    refine ⟨by omega, by omega, ?_, ?_, by omega, ?_, ?_, ?_, by omega⟩
    · intro x
      rw [hpc, hpH]
      by_cases hx2 : s.fhe.nextHandle + 1 + 1 = x
      · subst hx2; rw [mlookup_mset_self]; exact Nat.mod_lt _ M_pos
      · rw [mlookup_mset_ne _ _ hx2]
        by_cases hx1 : s.fhe.nextHandle + 1 = x
        · subst hx1; rw [mlookup_mset_self]; exact Nat.mod_lt _ M_pos
        · rw [mlookup_mset_ne _ _ hx1]
          by_cases hx : s.fhe.nextHandle = x
          · subst hx; rw [mlookup_mset_self]; exact hamt
          · rw [mlookup_mset_ne _ _ hx]; exact h3 x
    · intro a
      by_cases ha : sender = a
      · subst ha; rw [mlookup_mset_self]; omega
      · rw [mlookup_mset_ne _ _ ha]; have := h4 a; omega
    · intro a ha0
      rw [hpc, hpH,
        mlookup_mset_lt _ _ (show s.totalStakedCipher < s.fhe.nextHandle + 1 by omega),
        mlookup_mset_lt _ _ h5, h7 ht',
        mlookup_mset_lt _ _ (show s.fhe.nextHandle < s.fhe.nextHandle + 1 by omega),
        mlookup_mset_self, Nat.mod_eq_of_lt hamt]
      by_cases ha : sender = a
      · subst ha
        rw [mlookup_mset_self,
          mlookup_mset_lt _ _ (show s.fhe.nextHandle + 1 < s.fhe.nextHandle + 1 + 1 by omega),
          mlookup_mset_self, mlookup_mset_self]
        exact mod_sub_mod _ _ _ hamt (by omega)
      · rw [mlookup_mset_ne _ _ ha] at ha0
        rw [mlookup_mset_ne _ _ ha,
          mlookup_mset_lt _ _ (show mlookup s.stakesCipher a < s.fhe.nextHandle + 1 + 1 by have := h4 a; omega),
          mlookup_mset_lt _ _ (show mlookup s.stakesCipher a < s.fhe.nextHandle + 1 by have := h4 a; omega),
          mlookup_mset_lt _ _ (h4 a), mlookup_mset_ne _ _ ha]
        exact h6 a ha0
    · intro h0
      rw [hpc, hpH,
        mlookup_mset_lt _ _ (show s.totalStakedCipher < s.fhe.nextHandle + 1 by omega),
        mlookup_mset_lt _ _ h5, h7 ht',
        mlookup_mset_lt _ _ (show s.fhe.nextHandle < s.fhe.nextHandle + 1 by omega),
        mlookup_mset_self, hpH, Nat.mod_eq_of_lt hamt]
      exact mod_sub_mod _ _ _ hamt (by omega)
    · intro a ha0
      by_cases ha : sender = a
      · subst ha; rw [mlookup_mset_self] at ha0; omega
      · rw [mlookup_mset_ne _ _ ha] at ha0
        rw [mlookup_mset_ne _ _ ha]
        exact h8 a ha0

/-- Every reachable vault state satisfies the inductive invariant. -/
theorem reachable_inv {s : VaultState} (h : Reachable s) : VaultInv s := by
  induction h with
  | init =>
    unfold VaultInv initialVault FheState.init
    exact ⟨rfl, Nat.one_pos, fun x => M_pos, fun a => Nat.one_pos, Nat.one_pos,
      fun a h => absurd rfl h, fun h => absurd rfl h, fun a h => rfl, fun h => rfl⟩
  | step_stake h hm hok ih => exact stake_ok_inv ih hm hok
  | step_withdraw h hm hok ih => exact withdraw_ok_inv ih hm hok

/-! ### Operation effect and success helpers -/

theorem M_lt_U256 : M < U256 := by decide

/-- A successful `stake` records the plaintext effects exactly. -/
theorem stake_plain_effect {s s' : VaultState} {sender amount : Nat}
    {tOk : Bool} (hok : stake s sender amount tOk = .ok s') :
    s'.stakes = mset s.stakes sender (mlookup s.stakes sender + amount) ∧
    s'.totalStaked = s.totalStaked + amount ∧
    s'.events = .Staked sender amount :: s.events := by
  simp only [stake] at hok
  split_ifs at hok
  all_goals try simp only [reduceCtorEq] at hok
  all_goals (injection hok with hok; subst hok; exact ⟨rfl, rfl, rfl⟩)

/-- A successful `withdraw` records the plaintext effects exactly. -/
theorem withdraw_plain_effect {s s' : VaultState} {sender amount : Nat}
    {tOk : Bool} (hok : withdraw s sender amount tOk = .ok s') :
    s'.stakes = mset s.stakes sender (mlookup s.stakes sender - amount) ∧
    s'.totalStaked = s.totalStaked - amount ∧
    s'.events = .Withdrawn sender amount :: s.events := by
  simp only [withdraw] at hok
  split_ifs at hok
  all_goals try simp only [reduceCtorEq] at hok
  all_goals (injection hok with hok; subst hok; exact ⟨rfl, rfl, rfl⟩)

/-- `stake` with an accepted transfer succeeds whenever the local checks
pass. -/
theorem stake_succeeds (s : VaultState) (sender amount : Nat)
    (hz : amount ≠ 0)
    (hov1 : mlookup s.stakes sender + amount < U256)
    (hov2 : s.totalStaked + amount < U256) :
    ∃ s', stake s sender amount true = .ok s' := by
  cases hE : stake s sender amount true with
  | ok s' => exact ⟨s', rfl⟩
  | error e =>
    exfalso
    simp only [stake, if_neg hz, if_neg (Nat.not_le.mpr hov1),
      if_neg (Nat.not_le.mpr hov2)] at hE
    simp at hE

/-- `withdraw` with an accepted transfer succeeds whenever the local checks
pass. -/
theorem withdraw_succeeds (s : VaultState) (sender amount : Nat)
    (hz : amount ≠ 0)
    (hin : ¬ mlookup s.stakes sender < amount)
    (hun : ¬ s.totalStaked < amount) :
    ∃ s', withdraw s sender amount true = .ok s' := by
  cases hE : withdraw s sender amount true with
  | ok s' => exact ⟨s', rfl⟩
  | error e =>
    exfalso
    simp only [withdraw, if_neg hz, if_neg hin, if_neg hun] at hE
    simp at hE

/-- `stake` with a rejected transfer never succeeds. -/
theorem stake_reject_not_ok (s : VaultState) (sender amount : Nat)
    (s' : VaultState) : stake s sender amount false ≠ .ok s' := by
  intro h
  simp only [stake] at h
  split_ifs at h <;> simp_all

/-- `withdraw` with a rejected transfer never succeeds. -/
theorem withdraw_reject_not_ok (s : VaultState) (sender amount : Nat)
    (s' : VaultState) : withdraw s sender amount false ≠ .ok s' := by
  intro h
  simp only [withdraw] at h
  split_ifs at h <;> simp_all

/-! ### Claim theorems -/

/-- C3: at every observable point between operations (i.e. in every state
reachable from the freshly deployed vault by completed calls), the plaintext
total equals the sum of all accounts' plaintext stakes; in particular the
conservation property is preserved by every deposit and withdraw. -/
theorem conservation_reachable {s : VaultState} (h : Reachable s) :
    getTotalStaked s = sumStakes s.stakes :=
  (reachable_inv h).1

theorem conservation_reachable_witness :
    getTotalStaked (runCall initialVault (.stakeC 7 100 true)) =
      sumStakes (runCall initialVault (.stakeC 7 100 true)).stakes :=
  conservation_reachable (Reachable.step_stake Reachable.init
    (show (100 : Nat) < M by decide)
    (show stake initialVault 7 100 true =
      Except.ok (runCall initialVault (Call.stakeC 7 100 true)) from rfl))

/-- C1 as stated is false: plaintext stakes live in `uint256` and accumulate
exactly, while the `euint64` encrypted mirror wraps mod `2^64`.  After two
deposits of `2^64 - 1` by the same account (each transfer accepted), the
account's encrypted stake is initialized but decrypts to `2^64 - 2`, not to
the plaintext stake `2^65 - 2`. -/
theorem cipher_exact_counterexample :
    exceptOk (stake initialVault 2 (M - 1) true) = true ∧
    exceptOk (stake (runCall initialVault (.stakeC 2 (M - 1) true)) 2
      (M - 1) true) = true ∧
    getStakeCipher
      (runCalls initialVault [.stakeC 2 (M - 1) true, .stakeC 2 (M - 1) true])
      2 ≠ 0 ∧
    mlookup
      (runCalls initialVault
        [.stakeC 2 (M - 1) true, .stakeC 2 (M - 1) true]).fhe.plain
      (getStakeCipher
        (runCalls initialVault
          [.stakeC 2 (M - 1) true, .stakeC 2 (M - 1) true]) 2) ≠
    getStake
      (runCalls initialVault [.stakeC 2 (M - 1) true, .stakeC 2 (M - 1) true])
      2 := by
  decide

/-- C1 amended: in every reachable state, every initialized encrypted stake
handle decrypts to the account's plaintext stake reduced mod `2^64`, and the
initialized encrypted total decrypts to the plaintext total mod `2^64`
(hence exactly, whenever the plaintext value is below `2^64`). -/
theorem cipher_plain_consistency {s : VaultState} (h : Reachable s) :
    (∀ a, getStakeCipher s a ≠ 0 →
      mlookup s.fhe.plain (getStakeCipher s a) = getStake s a % M) ∧
    (getTotalStakedCipher s ≠ 0 →
      mlookup s.fhe.plain (getTotalStakedCipher s) = getTotalStaked s % M) := by
  obtain ⟨-, -, -, -, -, h6, h7, -, -⟩ := reachable_inv h
  exact ⟨h6, h7⟩

theorem cipher_plain_consistency_witness :
    mlookup (runCall initialVault (.stakeC 7 100 true)).fhe.plain
      (getStakeCipher (runCall initialVault (.stakeC 7 100 true)) 7) =
    getStake (runCall initialVault (.stakeC 7 100 true)) 7 % M :=
  (cipher_plain_consistency
    (Reachable.step_stake Reachable.init (show (100 : Nat) < M by decide)
      (show stake initialVault 7 100 true =
        Except.ok (runCall initialVault (Call.stakeC 7 100 true)) from
          rfl))).1 7 (by decide)

/-- C2: if the Registry rejects the confidential transfer step, the whole
deposit/withdraw reverts (`TransferFailed` when the local checks passed),
and under the host chain's revert semantics the state — plaintext stakes,
encrypted stakes, plaintext total, encrypted total, and everything else —
is exactly what it was before the call. -/
theorem transfer_reject_atomic (s : VaultState) (sender amount : Nat) :
    (amount ≠ 0 → ¬ U256 ≤ mlookup s.stakes sender + amount →
      ¬ U256 ≤ s.totalStaked + amount →
      stake s sender amount false = .error .TransferFailed) ∧
    (amount ≠ 0 → ¬ mlookup s.stakes sender < amount →
      ¬ s.totalStaked < amount →
      withdraw s sender amount false = .error .TransferFailed) ∧
    runCall s (.stakeC sender amount false) = s ∧
    runCall s (.withdrawC sender amount false) = s := by
  refine ⟨?_, ?_, ?_, ?_⟩
  · intro hz hov1 hov2
    simp [stake, hz, hov1, hov2]
  · intro hz hin hun
    simp [withdraw, hz, hin, hun]
  · cases hE : stake s sender amount false with
    | error e => rw [runCall, stepCall, hE]
    | ok s' => exact absurd hE (stake_reject_not_ok s sender amount s')
  · cases hE : withdraw s sender amount false with
    | error e => rw [runCall, stepCall, hE]
    | ok s' => exact absurd hE (withdraw_reject_not_ok s sender amount s')

theorem transfer_reject_atomic_witness :
    stake initialVault 3 5 false = .error .TransferFailed ∧
    runCall initialVault (.stakeC 3 5 false) = initialVault :=
  ⟨(transfer_reject_atomic initialVault 3 5).1 (by decide) (by decide)
      (by decide),
   (transfer_reject_atomic initialVault 3 5).2.2.1⟩

/-- C4: a successful `stake(account, amount)` (any positive amount)
increases the account's plaintext stake and the plaintext total by exactly
`amount`, and emits a `Staked(account, amount)` event in plaintext. -/
theorem stake_effect {s s' : VaultState} {sender amount : Nat} {tOk : Bool}
    (hpos : 0 < amount) (hok : stake s sender amount tOk = .ok s') :
    getStake s' sender = getStake s sender + amount ∧
    getTotalStaked s' = getTotalStaked s + amount ∧
    s'.events = .Staked sender amount :: s.events := by
  obtain ⟨h1, h2, h3⟩ := stake_plain_effect hok
  refine ⟨?_, h2, h3⟩
  rw [getStake, getStake, h1, mlookup_mset_self]

theorem stake_effect_witness :
    getStake (runCall initialVault (.stakeC 7 5000000 true)) 7 =
      getStake initialVault 7 + 5000000 ∧
    getTotalStaked (runCall initialVault (.stakeC 7 5000000 true)) =
      getTotalStaked initialVault + 5000000 ∧
    (runCall initialVault (.stakeC 7 5000000 true)).events =
      .Staked 7 5000000 :: initialVault.events :=
  stake_effect (by decide)
    (show stake initialVault 7 5000000 true =
      Except.ok (runCall initialVault (Call.stakeC 7 5000000 true)) from rfl)

/-- C5: a zero amount is rejected with `InvalidAmount` by both operations
(before any state change — the call returns an error, so under revert
semantics nothing is committed); for positive amounts, `withdraw` fails
with `InsufficientStake` exactly when the amount exceeds the caller's
plaintext stake; and withdrawing exactly the current (callable, i.e.
`uint64`-representable) stake succeeds and leaves the account's stake at
zero, still readable as zero. -/
theorem boundary_validation :
    (∀ (s : VaultState) (sender : Addr) (tOk : Bool),
      stake s sender 0 tOk = .error .InvalidAmount) ∧
    (∀ (s : VaultState) (sender : Addr) (tOk : Bool),
      withdraw s sender 0 tOk = .error .InvalidAmount) ∧
    (∀ (s : VaultState) (sender : Addr) (amount : Nat) (tOk : Bool),
      0 < amount →
      (withdraw s sender amount tOk = .error .InsufficientStake ↔
        getStake s sender < amount)) ∧
    (∀ (s : VaultState) (sender : Addr), Reachable s →
      0 < getStake s sender → getStake s sender < M →
      ∃ s', withdraw s sender (getStake s sender) true = .ok s' ∧
        getStake s' sender = 0) := by
  refine ⟨?_, ?_, ?_, ?_⟩
  · intro s sender tOk; simp [stake]
  · intro s sender tOk; simp [withdraw]
  · intro s sender amount tOk hpos
    constructor
    · intro hE
      by_contra hn
      rw [getStake] at hn
      simp only [withdraw, if_neg (by omega : ¬ amount = 0),
        if_neg hn] at hE
      split_ifs at hE <;> simp_all
    · intro hlt
      rw [getStake] at hlt
      have hz : ¬ amount = 0 := by omega
      simp [withdraw, hz, hlt]
  · intro s sender hreach hp hM'
    have hinv := (reachable_inv hreach).1
    have hle := mlookup_le_sumStakes s.stakes sender
    obtain ⟨s', hs'⟩ := withdraw_succeeds s sender (getStake s sender)
      (by rw [getStake] at hp ⊢; omega)
      (by rw [getStake]; omega)
      (by rw [getStake]; omega)
    refine ⟨s', hs', ?_⟩
    obtain ⟨h1, -, -⟩ := withdraw_plain_effect hs'
    rw [getStake, h1, mlookup_mset_self, getStake, Nat.sub_self]

theorem boundary_validation_witness :
    stake initialVault 3 0 true = .error .InvalidAmount ∧
    withdraw initialVault 3 1 true = .error .InsufficientStake ∧
    (∃ s', withdraw (runCall initialVault (.stakeC 7 100 true)) 7
        (getStake (runCall initialVault (.stakeC 7 100 true)) 7) true =
          .ok s' ∧
      getStake s' 7 = 0) := by
  refine ⟨boundary_validation.1 initialVault 3 true, ?_, ?_⟩
  · exact (boundary_validation.2.2.1 initialVault 3 1 true
      (by decide)).mpr (by decide)
  · exact boundary_validation.2.2.2
      (runCall initialVault (.stakeC 7 100 true)) 7
      (Reachable.step_stake Reachable.init (show (100 : Nat) < M by decide)
        (show stake initialVault 7 100 true =
          Except.ok (runCall initialVault (Call.stakeC 7 100 true)) from rfl))
      (by decide) (by decide)

/-- C10: in every reachable state, once withdraw's per-account check passes
(`amount ≤` the caller's plaintext stake), the amount is also bounded by the
plaintext total — by conservation — so the implicit `uint256` underflow
panic in `_totalStaked -= amount` is unreachable. -/
theorem withdraw_underflow_unreachable {s : VaultState} {sender amount : Nat}
    (hreach : Reachable s) (hle : amount ≤ getStake s sender) :
    amount ≤ getTotalStaked s ∧
    ∀ tOk, withdraw s sender amount tOk ≠ .error .Underflow := by
  have h1 := (reachable_inv hreach).1
  have hsum := mlookup_le_sumStakes s.stakes sender
  rw [getStake] at hle
  have hlt : amount ≤ s.totalStaked := by omega
  refine ⟨hlt, ?_⟩
  intro tOk hE
  simp only [withdraw] at hE
  split_ifs at hE <;> first | omega | simp_all

theorem withdraw_underflow_unreachable_witness :
    (50 : Nat) ≤ getTotalStaked (runCall initialVault (.stakeC 7 100 true)) ∧
    ∀ tOk, withdraw (runCall initialVault (.stakeC 7 100 true)) 7 50 tOk ≠
      .error .Underflow :=
  withdraw_underflow_unreachable
    (Reachable.step_stake Reachable.init (show (100 : Nat) < M by decide)
      (show stake initialVault 7 100 true =
        Except.ok (runCall initialVault (Call.stakeC 7 100 true)) from rfl))
    (by decide)

/-- C6 fails as stated for the encrypted total: after a second deposit the
total accumulator's new handle is a fresh homomorphic-sum handle on which
only the ledger (`FHE.allowThis`) is granted decryption — the depositor
(the subject principal) is not.  Account 2 deposits 5 then 7; the final
encrypted-total handle is initialized yet not decryptable by account 2
(while the account's own stake handle is). -/
theorem total_grant_counterexample :
    getTotalStakedCipher
      (runCalls initialVault [.stakeC 2 5 true, .stakeC 2 7 true]) ≠ 0 ∧
    fheAllowed
      (runCalls initialVault [.stakeC 2 5 true, .stakeC 2 7 true]).fhe
      (getTotalStakedCipher
        (runCalls initialVault [.stakeC 2 5 true, .stakeC 2 7 true])) 2 =
      false ∧
    fheAllowed
      (runCalls initialVault [.stakeC 2 5 true, .stakeC 2 7 true]).fhe
      (getStakeCipher
        (runCalls initialVault [.stakeC 2 5 true, .stakeC 2 7 true]) 2) 2 =
      true := by
  decide

/-- C6 amended: both accumulators follow the same combination rule
(uninitialized → the delta handle itself, with no homomorphic combination;
otherwise the homomorphic sum or difference of the current handle and the
delta), and on the new handle the account update grants decryption to the
ledger itself and to the account owner, while the total update grants it to
the ledger itself only. -/
theorem encrypted_update_rule (s : VaultState) (user : Addr) (amount : Nat)
    (isAdd : Bool) :
    (mlookup s.stakesCipher user = 0 →
      getStakeCipher (_updateEncryptedStake s user amount isAdd) user =
        amount ∧
      (_updateEncryptedStake s user amount isAdd).fhe.ops = s.fhe.ops) ∧
    (mlookup s.stakesCipher user ≠ 0 →
      getStakeCipher (_updateEncryptedStake s user amount isAdd) user =
        s.fhe.nextHandle ∧
      (_updateEncryptedStake s user amount isAdd).fhe.ops =
        (if isAdd then
          FheOp.add (mlookup s.stakesCipher user) amount s.fhe.nextHandle
         else
          FheOp.sub (mlookup s.stakesCipher user) amount s.fhe.nextHandle) ::
          s.fhe.ops) ∧
    fheAllowed (_updateEncryptedStake s user amount isAdd).fhe
      (getStakeCipher (_updateEncryptedStake s user amount isAdd) user)
      vaultAddr = true ∧
    fheAllowed (_updateEncryptedStake s user amount isAdd).fhe
      (getStakeCipher (_updateEncryptedStake s user amount isAdd) user)
      user = true ∧
    (∀ h p,
      fheAllowed (_updateEncryptedStake s user amount isAdd).fhe h p = true →
      fheAllowed s.fhe h p = true ∨
        (h = getStakeCipher (_updateEncryptedStake s user amount isAdd) user ∧
          (p = vaultAddr ∨ p = user))) ∧
    (s.totalStakedCipher = 0 →
      getTotalStakedCipher (_updateTotalEncryptedStake s amount isAdd) =
        amount ∧
      (_updateTotalEncryptedStake s amount isAdd).fhe.ops = s.fhe.ops) ∧
    (s.totalStakedCipher ≠ 0 →
      getTotalStakedCipher (_updateTotalEncryptedStake s amount isAdd) =
        s.fhe.nextHandle ∧
      (_updateTotalEncryptedStake s amount isAdd).fhe.ops =
        (if isAdd then FheOp.add s.totalStakedCipher amount s.fhe.nextHandle
         else FheOp.sub s.totalStakedCipher amount s.fhe.nextHandle) ::
          s.fhe.ops) ∧
    fheAllowed (_updateTotalEncryptedStake s amount isAdd).fhe
      (getTotalStakedCipher (_updateTotalEncryptedStake s amount isAdd))
      vaultAddr = true ∧
    (∀ h p,
      fheAllowed (_updateTotalEncryptedStake s amount isAdd).fhe h p = true →
      fheAllowed s.fhe h p = true ∨
        (h = getTotalStakedCipher (_updateTotalEncryptedStake s amount isAdd) ∧
          p = vaultAddr)) := by
  simp only [_updateEncryptedStake, _updateTotalEncryptedStake,
    getStakeCipher, getTotalStakedCipher, fheAllow, fheAllowed, fheAdd,
    fheSub]
  by_cases hc : mlookup s.stakesCipher user = 0 <;>
    by_cases ht : s.totalStakedCipher = 0 <;>
      cases isAdd <;>
        simp_all [mlookup_mset_self, List.mem_cons]
  all_goals tauto

theorem encrypted_update_rule_witness :
    getStakeCipher (_updateEncryptedStake initialVault 2 9 true) 2 = 9 ∧
    (_updateEncryptedStake initialVault 2 9 true).fhe.ops =
      initialVault.fhe.ops :=
  (encrypted_update_rule initialVault 2 9 true).1 (by decide)

/-- Recognizes `FHE.asEuint64` entries in the engine's operation log. -/
def isEncB : FheOp → Bool
  | .enc _ _ => true
  | _ => false

/-- The accumulator update consumed `delta` : either the new handle is the
delta itself (first write) or the logged homomorphic combination of the old
handle with `delta` produced the new handle. -/
def usesDelta (old delta new : Nat) (isAdd : Bool)
    (ops : List FheOp) : Prop :=
  new = delta ∨
    (if isAdd then FheOp.add old delta new
     else FheOp.sub old delta new) ∈ ops

/-- C7: each successful deposit/withdraw performs exactly one encryption
(`FHE.asEuint64`): the operation log grows by one `enc` entry (and no other
`enc` entries), the fresh handle it produced is the one passed to the
Registry's confidential transfer, and both accumulator updates consume that
same handle (directly on first write, as the delta operand of the logged
homomorphic combination otherwise). -/
theorem single_encryption_reuse (s : VaultState) (sender amount : Nat)
    (tOk : Bool) :
    (∀ s', stake s sender amount tOk = .ok s' →
      ∃ pre, s'.fhe.ops =
          pre ++ FheOp.enc (amount % M) s.fhe.nextHandle :: s.fhe.ops ∧
        pre.countP isEncB = 0 ∧
        s'.transfers = XferRec.xferIn sender s.fhe.nextHandle :: s.transfers ∧
        usesDelta (mlookup s.stakesCipher sender) s.fhe.nextHandle
          (getStakeCipher s' sender) true pre ∧
        usesDelta s.totalStakedCipher s.fhe.nextHandle
          (getTotalStakedCipher s') true pre) ∧
    (∀ s', withdraw s sender amount tOk = .ok s' →
      ∃ pre, s'.fhe.ops =
          pre ++ FheOp.enc (amount % M) s.fhe.nextHandle :: s.fhe.ops ∧
        pre.countP isEncB = 0 ∧
        s'.transfers = XferRec.xferOut sender s.fhe.nextHandle :: s.transfers ∧
        usesDelta (mlookup s.stakesCipher sender) s.fhe.nextHandle
          (getStakeCipher s' sender) false pre ∧
        usesDelta s.totalStakedCipher s.fhe.nextHandle
          (getTotalStakedCipher s') false pre) := by
  constructor
  · intro s' hok
    simp only [stake, _updateEncryptedStake, _updateTotalEncryptedStake,
      fheAsEuint64, fheAdd, fheSub, fheAllow, eq_self_iff_true,
      if_true] at hok
    split_ifs at hok
    all_goals try simp only [reduceCtorEq] at hok
    all_goals (injection hok with hok; subst hok)
    · exact ⟨[], rfl, rfl, rfl, Or.inl (mlookup_mset_self _ _ _), Or.inl rfl⟩
    · refine ⟨[FheOp.add s.totalStakedCipher s.fhe.nextHandle
          (s.fhe.nextHandle + 1)], rfl, by simp [isEncB], rfl,
        Or.inl (mlookup_mset_self _ _ _), Or.inr ?_⟩
      simp [getTotalStakedCipher]
    · refine ⟨[FheOp.add (mlookup s.stakesCipher sender) s.fhe.nextHandle
          (s.fhe.nextHandle + 1)], rfl, by simp [isEncB], rfl,
        Or.inr ?_, Or.inl rfl⟩
      simp [getStakeCipher, mlookup_mset_self]
    · refine ⟨[FheOp.add s.totalStakedCipher s.fhe.nextHandle
          (s.fhe.nextHandle + 2),
        FheOp.add (mlookup s.stakesCipher sender) s.fhe.nextHandle
          (s.fhe.nextHandle + 1)], rfl, by simp [isEncB], rfl,
        Or.inr ?_, Or.inr ?_⟩
      · simp [getStakeCipher, mlookup_mset_self]
      · simp [getTotalStakedCipher]
  · intro s' hok
    simp only [withdraw, _updateEncryptedStake, _updateTotalEncryptedStake,
      fheAsEuint64, fheAdd, fheSub, fheAllow, eq_self_iff_true, if_true,
      Bool.false_eq_true, if_false] at hok
    split_ifs at hok
    all_goals try simp only [reduceCtorEq] at hok
    all_goals (injection hok with hok; subst hok)
    · exact ⟨[], rfl, rfl, rfl, Or.inl (mlookup_mset_self _ _ _), Or.inl rfl⟩
    · refine ⟨[FheOp.sub s.totalStakedCipher s.fhe.nextHandle
          (s.fhe.nextHandle + 1)], rfl, by simp [isEncB], rfl,
        Or.inl (mlookup_mset_self _ _ _), Or.inr ?_⟩
      simp [getTotalStakedCipher]
    · refine ⟨[FheOp.sub (mlookup s.stakesCipher sender) s.fhe.nextHandle
          (s.fhe.nextHandle + 1)], rfl, by simp [isEncB], rfl,
        Or.inr ?_, Or.inl rfl⟩
      simp [getStakeCipher, mlookup_mset_self]
    · refine ⟨[FheOp.sub s.totalStakedCipher s.fhe.nextHandle
          (s.fhe.nextHandle + 2),
        FheOp.sub (mlookup s.stakesCipher sender) s.fhe.nextHandle
          (s.fhe.nextHandle + 1)], rfl, by simp [isEncB], rfl,
        Or.inr ?_, Or.inr ?_⟩
      · simp [getStakeCipher, mlookup_mset_self]
      · simp [getTotalStakedCipher]

theorem single_encryption_reuse_witness :
    ∃ pre, (runCall initialVault (Call.stakeC 7 100 true)).fhe.ops =
        pre ++ FheOp.enc (100 % M) initialVault.fhe.nextHandle ::
          initialVault.fhe.ops ∧
      pre.countP isEncB = 0 ∧
      (runCall initialVault (Call.stakeC 7 100 true)).transfers =
        XferRec.xferIn 7 initialVault.fhe.nextHandle ::
          initialVault.transfers ∧
      usesDelta (mlookup initialVault.stakesCipher 7)
        initialVault.fhe.nextHandle
        (getStakeCipher (runCall initialVault (Call.stakeC 7 100 true)) 7)
        true pre ∧
      usesDelta initialVault.totalStakedCipher initialVault.fhe.nextHandle
        (getTotalStakedCipher (runCall initialVault (Call.stakeC 7 100 true)))
        true pre :=
  (single_encryption_reuse initialVault 7 100 true).1 _
    (show stake initialVault 7 100 true =
      Except.ok (runCall initialVault (Call.stakeC 7 100 true)) from rfl)

theorem two_M_le_U256 : M + M ≤ U256 := by decide

/-- C8: two deposits by distinct accounts from the fresh vault commute on
the plaintext state: in either order both succeed, the plaintext total is
the sum of the two amounts, each account's stake is exactly its own
contribution, and the resulting plaintext stake maps agree on every
account. -/
theorem independent_deposits_commute (x y a b : Nat) (hxy : x ≠ y)
    (ha : 0 < a) (hb : 0 < b) (haM : a < M) (hbM : b < M) :
    getTotalStaked
      (runCalls initialVault [.stakeC x a true, .stakeC y b true]) = a + b ∧
    getTotalStaked
      (runCalls initialVault [.stakeC y b true, .stakeC x a true]) = a + b ∧
    getStake (runCalls initialVault [.stakeC x a true, .stakeC y b true]) x =
      a ∧
    getStake (runCalls initialVault [.stakeC x a true, .stakeC y b true]) y =
      b ∧
    getStake (runCalls initialVault [.stakeC y b true, .stakeC x a true]) x =
      a ∧
    getStake (runCalls initialVault [.stakeC y b true, .stakeC x a true]) y =
      b ∧
    ∀ z, getStake
        (runCalls initialVault [.stakeC x a true, .stakeC y b true]) z =
      getStake (runCalls initialVault [.stakeC y b true, .stakeC x a true]) z
    := by
  have hMU := M_lt_U256
  have h2MU := two_M_le_U256
  have key : ∀ u v au av : Nat, u ≠ v → 0 < au → au < M → 0 < av → av < M →
      getTotalStaked
        (runCalls initialVault [.stakeC u au true, .stakeC v av true]) =
        au + av ∧
      getStake (runCalls initialVault [.stakeC u au true, .stakeC v av true])
        u = au ∧
      getStake (runCalls initialVault [.stakeC u au true, .stakeC v av true])
        v = av ∧
      ∀ z, z ≠ u → z ≠ v →
        getStake
          (runCalls initialVault [.stakeC u au true, .stakeC v av true]) z =
          0 := by
    intro u v au av huv hau hauM hav havM
    obtain ⟨s1, h1⟩ := stake_succeeds initialVault u au (by omega)
      (by simp only [initialVault, mlookup]; omega)
      (by simp only [initialVault]; omega)
    have hrun1 : runCall initialVault (.stakeC u au true) = s1 := by
      rw [runCall, stepCall, h1]
    obtain ⟨hs1map, hs1tot, -⟩ := stake_plain_effect h1
    have hs1u : mlookup s1.stakes u = au := by
      rw [hs1map, mlookup_mset_self]
      simp [initialVault, mlookup]
    have hs1z : ∀ z, z ≠ u → mlookup s1.stakes z = 0 := by
      intro z hz
      rw [hs1map, mlookup_mset_ne _ _ (Ne.symm hz)]
      simp [initialVault, mlookup]
    have hs1t : s1.totalStaked = au := by
      rw [hs1tot]; simp [initialVault]
    obtain ⟨s2, h2⟩ := stake_succeeds s1 v av (by omega)
      (by rw [hs1z v (Ne.symm huv)]; omega)
      (by rw [hs1t]; omega)
    have hrun2 : runCall s1 (.stakeC v av true) = s2 := by
      rw [runCall, stepCall, h2]
    obtain ⟨hs2map, hs2tot, -⟩ := stake_plain_effect h2
    have hrr : runCalls initialVault [.stakeC u au true, .stakeC v av true] =
        s2 := by
      simp only [runCalls, List.foldl_cons, List.foldl_nil]
      rw [hrun1, hrun2]
    rw [hrr]
    refine ⟨?_, ?_, ?_, ?_⟩
    · rw [getTotalStaked, hs2tot, hs1t]
    · rw [getStake, hs2map, mlookup_mset_ne _ _ (Ne.symm huv), hs1u]
    · rw [getStake, hs2map, mlookup_mset_self, hs1z v (Ne.symm huv),
        Nat.zero_add]
    · intro z hzu hzv
      rw [getStake, hs2map, mlookup_mset_ne _ _ (Ne.symm hzv),
        hs1z z hzu]
  obtain ⟨t1, k1u, k1v, k1z⟩ := key x y a b hxy ha haM hb hbM
  obtain ⟨t2, k2v, k2u, k2z⟩ := key y x b a (Ne.symm hxy) hb hbM ha haM
  refine ⟨t1, by omega, k1u, k1v, k2u, k2v, ?_⟩
  intro z
  by_cases hzx : z = x
  · subst hzx; rw [k1u, k2u]
  · by_cases hzy : z = y
    · subst hzy; rw [k1v, k2v]
    · rw [k1z z hzx hzy, k2z z hzy hzx]

theorem independent_deposits_commute_witness :
    getTotalStaked (runCalls initialVault
      [.stakeC 2 1000000 true, .stakeC 3 1000000 true]) = 1000000 + 1000000 ∧
    getTotalStaked (runCalls initialVault
      [.stakeC 3 1000000 true, .stakeC 2 1000000 true]) = 1000000 + 1000000 ∧
    getStake (runCalls initialVault
      [.stakeC 2 1000000 true, .stakeC 3 1000000 true]) 2 = 1000000 ∧
    getStake (runCalls initialVault
      [.stakeC 2 1000000 true, .stakeC 3 1000000 true]) 3 = 1000000 ∧
    getStake (runCalls initialVault
      [.stakeC 3 1000000 true, .stakeC 2 1000000 true]) 2 = 1000000 ∧
    getStake (runCalls initialVault
      [.stakeC 3 1000000 true, .stakeC 2 1000000 true]) 3 = 1000000 ∧
    ∀ z, getStake (runCalls initialVault
        [.stakeC 2 1000000 true, .stakeC 3 1000000 true]) z =
      getStake (runCalls initialVault
        [.stakeC 3 1000000 true, .stakeC 2 1000000 true]) z :=
  independent_deposits_commute 2 3 1000000 1000000 (by decide) (by decide)
    (by decide) (by decide) (by decide)

/-- C9: amounts are `uint64` (every reachable-trace amount is below `2^64`,
as `Reachable` encodes); the `euint64` homomorphic add/sub of the encryption
engine wrap mod `2^64`; the plaintext per-account stakes and total are
`uint256` values maintained with exact (non-wrapping) arithmetic by
successful operations; consequently the reachable two-deposit trace of
`2^64 - 1` twice drives the plaintext stake past `2^64 - 1` while its
encrypted mirror holds the value only mod `2^64`. -/
theorem width_model :
    (∀ (f : FheState) (a b : Nat),
      mlookup (fheAdd f a b).1.plain (fheAdd f a b).2 =
        (mlookup f.plain a + mlookup f.plain b) % M) ∧
    (∀ (f : FheState) (a b : Nat),
      mlookup (fheSub f a b).1.plain (fheSub f a b).2 =
        (mlookup f.plain a + (M - mlookup f.plain b % M)) % M) ∧
    (∀ (s s' : VaultState) (sender amount : Nat) (tOk : Bool),
      stake s sender amount tOk = .ok s' →
      getStake s' sender = getStake s sender + amount ∧
      getTotalStaked s' = getTotalStaked s + amount) ∧
    Reachable (runCalls initialVault
      [.stakeC 2 (M - 1) true, .stakeC 2 (M - 1) true]) ∧
    getStake (runCalls initialVault
      [.stakeC 2 (M - 1) true, .stakeC 2 (M - 1) true]) 2 = 2 * M - 2 ∧
    M - 1 < 2 * M - 2 ∧
    mlookup (runCalls initialVault
      [.stakeC 2 (M - 1) true, .stakeC 2 (M - 1) true]).fhe.plain
      (getStakeCipher (runCalls initialVault
        [.stakeC 2 (M - 1) true, .stakeC 2 (M - 1) true]) 2) =
      (2 * M - 2) % M := by
  refine ⟨?_, ?_, ?_, ?_, by decide, by decide, by decide⟩
  · intro f a b
    simp [fheAdd, mlookup_mset_self]
  · intro f a b
    simp [fheSub, mlookup_mset_self]
  · intro s s' sender amount tOk hok
    obtain ⟨h1, h2, -⟩ := stake_plain_effect hok
    exact ⟨by rw [getStake, getStake, h1, mlookup_mset_self], h2⟩
  · refine Reachable.step_stake (Reachable.step_stake Reachable.init
      (show M - 1 < M by decide)
      (show stake initialVault 2 (M - 1) true =
        Except.ok (runCall initialVault (Call.stakeC 2 (M - 1) true)) from
          rfl))
      (show M - 1 < M by decide)
      (show stake (runCall initialVault (Call.stakeC 2 (M - 1) true)) 2
          (M - 1) true =
        Except.ok (runCalls initialVault
          [Call.stakeC 2 (M - 1) true, Call.stakeC 2 (M - 1) true]) from rfl)

theorem width_model_witness :
    getStake (runCall initialVault (.stakeC 9 4 true)) 9 =
      getStake initialVault 9 + 4 ∧
    getTotalStaked (runCall initialVault (.stakeC 9 4 true)) =
      getTotalStaked initialVault + 4 :=
  width_model.2.2.1 initialVault _ 9 4 true
    (show stake initialVault 9 4 true =
      Except.ok (runCall initialVault (Call.stakeC 9 4 true)) from rfl)
